import Mathlib

/-
Verification of the chunk-alignment kernel dispatcher and of the physical
type / encryption-sizing layer of a columnar data toolkit.

The development shallowly embeds:
  * `src/cpp/src/parquet/types.h`: the `Int96` legacy timestamp helpers
    (`Int96SetNanoSeconds`, `Int96GetNanoSeconds`), the `EncryptionProperties`
    class with its cipher-frame sizing arithmetic (`CalculateCipherSize`,
    `CalculatePlainSize`) and its key-wiping destructor.
  * `src/unnamed/part_000` (arrow compute `util-internal.cc`): the kernel
    invocation layer (`InvokeUnaryArrayKernel`, `InvokeBinaryArrayKernel` in
    both overloads, `WrapArraysLike`, `WrapDatumsLike`).

Machine integers are embedded as `Nat`/`Int` with explicit reduction modulo
`2^32` (uint32_t) or `2^64` (int64_t bit patterns) exactly where the C++
performs fixed-width arithmetic.  `std::string` payloads are embedded as
lists of byte values.  The surrounding Array/ChunkedArray/Datum containers
are opaque collaborators of the dispatcher; they are embedded through the
length/chunk-access contract the spec assigns to them (an array is observed
only through its signed 64-bit length, a chunked array through its ordered
list of chunks whose lengths sum to its logical length).
-/

/- ------------------------------------------------------------------ -/
/- Part 1: fixed-width integer helpers                                 -/
/- ------------------------------------------------------------------ -/

/-- Two's-complement bit pattern of an `int64_t` value, as a natural number
below `2^64` (`18446744073709551616`). -/
def toUInt64Pattern (v : Int) : Nat :=
  (v % 18446744073709551616).toNat

/-- Reinterpret a 64-bit pattern as a signed `int64_t` value
(two's complement; `9223372036854775808 = 2^63`). -/
def ofUInt64Pattern (n : Nat) : Int :=
  if n < 9223372036854775808 then (n : Int) else (n : Int) - 18446744073709551616

/-- Result of an `int64_t` arithmetic expression, reduced to the machine
representation (two's-complement wraparound on overflow). -/
def int64Wrap (x : Int) : Int :=
  ofUInt64Pattern (toUInt64Pattern x)

/-- `uint32_t` addition (`4294967296 = 2^32`). -/
def u32add (a b : Nat) : Nat :=
  (a + b) % 4294967296

/-- `uint32_t` subtraction (modular; both operands are uint32 values). -/
def u32sub (a b : Nat) : Nat :=
  (a + 4294967296 - b) % 4294967296

/- ------------------------------------------------------------------ -/
/- Part 2: Int96 legacy timestamp helpers (parquet/types.h)            -/
/- ------------------------------------------------------------------ -/

/-- `Int96` from `parquet/types.h`: `uint32_t value[3]`.  The three words
are modelled as separate fields `value0`, `value1`, `value2`. -/
structure Int96 where
  value0 : Nat
  value1 : Nat
  value2 : Nat
deriving DecidableEq

/-- `kJulianToUnixEpochDays = INT64_C(2440588)` from `parquet/types.h`. -/
def kJulianToUnixEpochDays : Int := 2440588

/-- `kSecondsPerDay = INT64_C(60 * 60 * 24)`. -/
def kSecondsPerDay : Int := 60 * 60 * 24

/-- `kMillisecondsPerDay = kSecondsPerDay * 1000`. -/
def kMillisecondsPerDay : Int := kSecondsPerDay * 1000

/-- `kMicrosecondsPerDay = kMillisecondsPerDay * 1000`. -/
def kMicrosecondsPerDay : Int := kMillisecondsPerDay * 1000

/-- `kNanosecondsPerDay = kMicrosecondsPerDay * 1000`. -/
def kNanosecondsPerDay : Int := kMicrosecondsPerDay * 1000

/-- `Int96SetNanoSeconds(parquet::Int96& i96, int64_t nanoseconds)`:
`std::memcpy(&i96.value, &nanoseconds, sizeof(nanoseconds))` copies the 8
bytes of `nanoseconds` over `value[0]` and `value[1]` (little-endian:
`value[0]` receives the low word) and leaves `value[2]` untouched. -/
def Int96SetNanoSeconds (i96 : Int96) (nanoseconds : Int) : Int96 :=
  { i96 with
    value0 := toUInt64Pattern nanoseconds % 4294967296
    value1 := toUInt64Pattern nanoseconds / 4294967296 }

/-- `Int96GetNanoSeconds(const parquet::Int96& i96)`: reads
`days_since_epoch = i96.value[2] - kJulianToUnixEpochDays`, memcpys the
first 8 bytes of `value` back into an `int64_t`, and returns
`days_since_epoch * kNanosecondsPerDay + nanoseconds` in `int64_t`
arithmetic. -/
def Int96GetNanoSeconds (i96 : Int96) : Int :=
  let days_since_epoch : Int := (i96.value2 : Int) - kJulianToUnixEpochDays
  let nanoseconds : Int := ofUInt64Pattern (i96.value0 + 4294967296 * i96.value1)
  int64Wrap (days_since_epoch * kNanosecondsPerDay + nanoseconds)

/- ------------------------------------------------------------------ -/
/- Part 3: EncryptionProperties (parquet/types.h)                      -/
/- ------------------------------------------------------------------ -/

/-- `struct Encryption { enum type { AES_GCM_V1 = 0, AES_GCM_CTR_V1 = 1 }; }`. -/
inductive Encryption where
  | AES_GCM_V1
  | AES_GCM_CTR_V1
deriving DecidableEq

/-- `class EncryptionProperties`: algorithm selector plus owned key and aad
strings (strings modelled as lists of byte values). -/
structure EncryptionProperties where
  algorithm_ : Encryption
  key_ : List Nat
  aad_ : List Nat
deriving DecidableEq

/-- `std::string::replace(pos, count, count2, ch)`: replace the substring
`[pos, pos + count)` by `count2` copies of the character `ch`. -/
def stringReplace (s : List Nat) (pos count count2 : Nat) (ch : Nat) : List Nat :=
  s.take pos ++ List.replicate count2 ch ++ s.drop (pos + count)

/-- `~EncryptionProperties() { key_.replace(0, key_.length(), key_.length(), '\0'); }`
modelled as a state transformer: the state of the object after the
destructor body has run. -/
def EncryptionProperties.destructor (p : EncryptionProperties) : EncryptionProperties :=
  { p with key_ := stringReplace p.key_ 0 p.key_.length p.key_.length 0 }

/-- `uint32_t CalculateCipherSize(uint32_t plain_len, bool is_metadata)` from
`parquet/types.h` (uint32 arithmetic). -/
def EncryptionProperties.CalculateCipherSize (p : EncryptionProperties)
    (plain_len : Nat) (is_metadata : Bool) : Nat :=
  if is_metadata ∨ p.algorithm_ = Encryption.AES_GCM_V1 then
    u32add (u32add plain_len 28) 4
  else if p.algorithm_ = Encryption.AES_GCM_CTR_V1 then
    u32add (u32add plain_len 16) 4
  else
    plain_len

/-- `uint32_t CalculatePlainSize(uint32_t cipher_len, bool is_metadata)` from
`parquet/types.h` (uint32 arithmetic; the subtractions are unguarded). -/
def EncryptionProperties.CalculatePlainSize (p : EncryptionProperties)
    (cipher_len : Nat) (is_metadata : Bool) : Nat :=
  if is_metadata ∨ p.algorithm_ = Encryption.AES_GCM_V1 then
    u32sub (u32sub cipher_len 28) 4
  else if p.algorithm_ = Encryption.AES_GCM_CTR_V1 then
    u32sub (u32sub cipher_len 16) 4
  else
    cipher_len

/- ------------------------------------------------------------------ -/
/- Part 4: datum / array model for the kernel dispatcher               -/
/- ------------------------------------------------------------------ -/

/-- An arrow `Array` as observed by the dispatcher.  Modelled from the spec:
the Array collaborator is opaque and exposes only its signed 64-bit logical
`length()` (spec section 3 and section 6); that length is the only attribute
the dispatcher reads. -/
structure ArrayRef where
  length : Int
deriving DecidableEq

/-- `Array::Slice(start, length)`.  Modelled from the spec: a zero-copy view
over a contiguous sub-range of exactly the requested number of elements
(spec section 6); only the length of the view is observable here. -/
def ArrayRef.slice (_a : ArrayRef) (_start len : Int) : ArrayRef :=
  ⟨len⟩

/-- `ChunkedArray::length()`.  Modelled from the spec: the chunk lengths sum
to the chunked array's total logical length (spec section 3). -/
def chunkedLength (chunks : List ArrayRef) : Int :=
  (chunks.map ArrayRef.length).sum

/-- A `Datum`: tagged union over array kinds.  `Datum::ARRAY` and
`Datum::CHUNKED_ARRAY` are the two array-like kinds the dispatcher handles;
`other` stands for every remaining kind (scalar, table, none, ...). -/
inductive Datum where
  | array (a : ArrayRef)
  | chunked (chunks : List ArrayRef)
  | other
deriving DecidableEq

/-- Whether a datum is array-like (kind `ARRAY` or `CHUNKED_ARRAY`). -/
def Datum.arrayLike : Datum → Bool
  | .array _ => true
  | .chunked _ => true
  | .other => false

/-- Kind test for `Datum::ARRAY` (used by the `DCHECK_EQ(Datum::ARRAY, kind)`
consistency check in `WrapDatumsLike`). -/
def Datum.isArrayKind : Datum → Bool
  | .array _ => true
  | _ => false

/-- Total logical length of an array-like datum (0 for other kinds). -/
def datumLength : Datum → Int
  | .array a => a.length
  | .chunked cs => chunkedLength cs
  | .other => 0

/-- Chunk list of an array-like datum: a single array is one chunk, mirroring
`left_arrays.push_back(left.make_array())` versus
`left_arrays = left.chunked_array()->chunks()`. -/
def Datum.chunksOf : Datum → List ArrayRef
  | .array a => [a]
  | .chunked cs => cs
  | .other => []

/-- The resolution step at the top of `InvokeBinaryArrayKernel`: an
array-like datum yields its total length and its ordered chunk list;
any other kind is rejected (`none`). -/
def resolveDatum : Datum → Option (Int × List ArrayRef)
  | .array a => some (a.length, [a])
  | .chunked cs => some (chunkedLength cs, cs)
  | .other => none

/-- `Status` as used by the dispatcher: `Status::OK()` or
`Status::Invalid(msg)` (every non-ok status a kernel can produce is carried
the same way by `RETURN_NOT_OK`). -/
inductive Status where
  | ok
  | invalid (msg : String)
deriving DecidableEq

/-- A `BinaryKernel`: `kernel->Call(ctx, Datum(left_op), Datum(right_op), &output)`
observed as a function from the two operand datums to a status and the
output datum written on success. -/
abbrev BinaryKernel : Type :=
  Datum → Datum → Status × Datum

/-- A `UnaryKernel`: `kernel->Call(ctx, value, &output)` observed as a
function from the operand datum to a status and the output datum. -/
abbrev UnaryKernel : Type :=
  Datum → Status × Datum

/-- Error message of the left-operand kind check. -/
def msgLeftNotArrayLike : String := "Left input Datum was not array-like"

/-- Error message of the right-operand kind check. -/
def msgRightNotArrayLike : String := "Right input Datum was not array-like"

/-- Error message of the unary-operand kind check. -/
def msgInputNotArrayLike : String := "Input Datum was not array-like"

/-- Error message of the length equality check. -/
def msgDifferentLengths : String := "Right and left have different lengths"

/- ------------------------------------------------------------------ -/
/- Part 5: the dispatcher functions (src/unnamed/part_000)             -/
/- ------------------------------------------------------------------ -/

/-- The loop over the chunks of a chunked unary input:
`for (int i = 0; i < array.num_chunks(); i++) { Call(ctx, Datum(array.chunk(i)), &output); outputs->push_back(output); }`
with `RETURN_NOT_OK` early exit. -/
def unaryChunkLoop (kernel : UnaryKernel) : List ArrayRef → List Datum → Status × List Datum
  | [], outputs => (Status.ok, outputs)
  | c :: rest, outputs =>
    match kernel (Datum.array c) with
    | (Status.ok, output) => unaryChunkLoop kernel rest (outputs ++ [output])
    | (st, _) => (st, outputs)

/-- `InvokeUnaryArrayKernel(ctx, kernel, value, outputs)` from
`src/unnamed/part_000`: the accumulating `outputs` vector is threaded
explicitly; the returned list is its final state. -/
def InvokeUnaryArrayKernel (kernel : UnaryKernel) (value : Datum)
    (outputs : List Datum) : Status × List Datum :=
  match value with
  | Datum.array _ =>
    match kernel value with
    | (Status.ok, output) => (Status.ok, outputs ++ [output])
    | (st, _) => (st, outputs)
  | Datum.chunked chunks => unaryChunkLoop kernel chunks outputs
  | Datum.other => (Status.invalid msgInputNotArrayLike, outputs)

/-- The chunk-alignment `while (elements_compared < left_length)` loop of
`InvokeBinaryArrayKernel`, with the two cursors (chunk index plus
intra-chunk offset) per side.  The unbounded C++ loop is modelled with an
explicit fuel argument; `none` marks fuel exhaustion or an out-of-bounds
`left_arrays[...]` / `right_arrays[...]` access (undefined behaviour in the
source) — the termination theorem shows a fuel of
`left_arrays.length + right_arrays.length + 1` always suffices and the
accesses stay in bounds. -/
def binaryLoop (kernel : BinaryKernel) (left_arrays right_arrays : List ArrayRef)
    (left_length : Int) :
    Nat → Nat → Int → Nat → Int → Int → List Datum → Option (Status × List Datum)
  | 0, _, _, _, _, _, _ => none
  | fuel + 1, left_chunk_idx, left_start_idx, right_chunk_idx, right_start_idx,
      elements_compared, outputs =>
    if elements_compared < left_length then
      match left_arrays.get? left_chunk_idx, right_arrays.get? right_chunk_idx with
      | some left_array, some right_array =>
        let common_length :=
          min (left_array.length - left_start_idx) (right_array.length - right_start_idx)
        let left_op := left_array.slice left_start_idx common_length
        let right_op := right_array.slice right_start_idx common_length
        match kernel (Datum.array left_op) (Datum.array right_op) with
        | (Status.ok, output) =>
          binaryLoop kernel left_arrays right_arrays left_length fuel
            (if left_start_idx + common_length = left_array.length
              then left_chunk_idx + 1 else left_chunk_idx)
            (if left_start_idx + common_length = left_array.length
              then 0 else left_start_idx + common_length)
            (if right_start_idx + common_length = right_array.length
              then right_chunk_idx + 1 else right_chunk_idx)
            (if right_start_idx + common_length = right_array.length
              then 0 else right_start_idx + common_length)
            (elements_compared + common_length)
            (outputs ++ [output])
        | (st, _) => some (st, outputs)
      | _, _ => none
    else
      some (Status.ok, outputs)

/-- `InvokeBinaryArrayKernel(ctx, kernel, left, right, outputs)` (the
`std::vector<Datum>* outputs` overload) from `src/unnamed/part_000`. -/
def InvokeBinaryArrayKernel (kernel : BinaryKernel) (left right : Datum)
    (outputs : List Datum) : Option (Status × List Datum) :=
  match resolveDatum left with
  | none => some (Status.invalid msgLeftNotArrayLike, outputs)
  | some (left_length, left_arrays) =>
    match resolveDatum right with
    | none => some (Status.invalid msgRightNotArrayLike, outputs)
    | some (right_length, right_arrays) =>
      if right_length ≠ left_length then
        some (Status.invalid msgDifferentLengths, outputs)
      else
        binaryLoop kernel left_arrays right_arrays left_length
          (left_arrays.length + right_arrays.length + 1) 0 0 0 0 0 outputs

/-- `WrapArraysLike(value, arrays)` from `src/unnamed/part_000`: `none`
models the `DCHECK(false) << "unhandled datum kind"` branch and the
unchecked `arrays[0]` access on an empty list. -/
def WrapArraysLike (value : Datum) (arrays : List ArrayRef) : Option Datum :=
  match value with
  | Datum.array _ =>
    match arrays with
    | a :: _ => some (Datum.array a)
    | [] => none
  | Datum.chunked _ => some (Datum.chunked arrays)
  | Datum.other => none

/-- `WrapDatumsLike(value, datums)` from `src/unnamed/part_000`: `none`
models a failed `DCHECK` (assertion semantics) and the variant access
`datum.array()` applied to a datum that is not of kind `ARRAY`. -/
def WrapDatumsLike (value : Datum) (datums : List Datum) : Option Datum :=
  match value with
  | Datum.array _ =>
    if h : datums.length = 1 then
      match datums.get ⟨0, by omega⟩ with
      | Datum.array a => some (Datum.array a)
      | _ => none
    else
      none
  | Datum.chunked _ =>
    if datums.all Datum.isArrayKind then
      some (Datum.chunked (datums.filterMap fun d =>
        match d with
        | Datum.array a => some a
        | _ => none))
    else
      none
  | Datum.other => none

/-- The `Datum* output` overload of `InvokeBinaryArrayKernel`: run the
vector overload on a fresh vector, then re-wrap the result in the shape of
`left`.  The outer `Option` is inherited from the loop model; the inner
`Option Datum` is the wrapped output (`none` when `WrapDatumsLike` fails
its consistency check, or when the status is not ok and `*output` is never
assigned). -/
def InvokeBinaryArrayKernelDatum (kernel : BinaryKernel) (left right : Datum) :
    Option (Status × Option Datum) :=
  match InvokeBinaryArrayKernel kernel left right [] with
  | none => none
  | some (Status.ok, result) => some (Status.ok, WrapDatumsLike left result)
  | some (st, _) => some (st, none)

/- ------------------------------------------------------------------ -/
/- Part 6: helper lemmas for the fixed-width integer model             -/
/- ------------------------------------------------------------------ -/

/-- Reinterpreting the bit pattern of an in-range `int64_t` value recovers
the value. -/
lemma ofUInt64Pattern_toUInt64Pattern (v : Int)
    (h1 : -9223372036854775808 ≤ v) (h2 : v < 9223372036854775808) :
    ofUInt64Pattern (toUInt64Pattern v) = v := by
  unfold ofUInt64Pattern toUInt64Pattern
  split <;> omega

/-- The two stored words of `Int96SetNanoSeconds` reassemble to the 64-bit
pattern of the stored value. -/
lemma int96_set_words (v : Int) :
    toUInt64Pattern v % 4294967296 + 4294967296 * (toUInt64Pattern v / 4294967296)
      = toUInt64Pattern v := by
  omega

/- ------------------------------------------------------------------ -/
/- Part 7: claims C1 to C4 and C9                                      -/
/- ------------------------------------------------------------------ -/

/-- Claim C1, as stated, is false: `Int96SetNanoSeconds` writes only
`value[0..1]` and leaves `value[2]` (the Julian day word that
`Int96GetNanoSeconds` reads) unchanged, so the round trip fails whenever
the Int96 being written did not already hold the Julian day of the Unix
epoch.  Concrete input: an Int96 whose third word is `2440589` (one day
past the epoch) and `v = 0`; reading back yields `kNanosecondsPerDay`, not
`0`. -/
theorem int96_roundtrip_claim_cex :
    ¬ (∀ (i96 : Int96) (v : Int), -9223372036854775808 ≤ v →
        v < 9223372036854775808 →
        Int96GetNanoSeconds (Int96SetNanoSeconds i96 v) = v) := by
  intro h
  have := h ⟨0, 0, 2440589⟩ 0 (by decide) (by decide)
  revert this
  decide

/-- Claim C1 (amended): for every int64 nanosecond value `v` and every
`Int96` whose word 2 already holds the Julian day of the Unix epoch
(`2440588` — `Int96SetNanoSeconds` leaves that word unchanged, so it must
hold beforehand), `Int96GetNanoSeconds (Int96SetNanoSeconds i96 v) = v`. -/
theorem int96_roundtrip_julian_epoch (i96 : Int96) (v : Int)
    (h1 : -9223372036854775808 ≤ v) (h2 : v < 9223372036854775808)
    (hday : i96.value2 = 2440588) :
    Int96GetNanoSeconds (Int96SetNanoSeconds i96 v) = v := by
  unfold Int96GetNanoSeconds Int96SetNanoSeconds
  simp only [hday, int96_set_words]
  rw [show ((2440588 : Nat) : Int) - kJulianToUnixEpochDays = 0 by decide]
  rw [zero_mul, zero_add, ofUInt64Pattern_toUInt64Pattern v h1 h2]
  unfold int64Wrap
  rw [ofUInt64Pattern_toUInt64Pattern v h1 h2]

/-- Witness for C1's amended theorem at `i96 = (7, 7, 2440588)`, `v = -5`. -/
theorem int96_roundtrip_julian_epoch_witness :
    Int96GetNanoSeconds (Int96SetNanoSeconds ⟨7, 7, 2440588⟩ (-5)) = -5 :=
  int96_roundtrip_julian_epoch ⟨7, 7, 2440588⟩ (-5) (by decide) (by decide) rfl

/-- Claim C2: for every `cipher_len` strictly below the fixed overhead of
the selected branch (32 when `is_metadata` or the algorithm is
`AES_GCM_V1`; 20 when the algorithm is `AES_GCM_CTR_V1` and not metadata),
`CalculatePlainSize` subtracts without any guard and returns
`cipher_len - overhead` wrapped modulo `2^32` (that is,
`cipher_len + 2^32 - overhead`), an ordinary unsigned value rather than an
error. -/
theorem calculatePlainSize_underflow_wraps (p : EncryptionProperties)
    (cipher_len : Nat) (is_metadata : Bool) :
    ((is_metadata = true ∨ p.algorithm_ = Encryption.AES_GCM_V1) →
      cipher_len < 32 →
      p.CalculatePlainSize cipher_len is_metadata = cipher_len + 4294967296 - 32) ∧
    (is_metadata = false → p.algorithm_ = Encryption.AES_GCM_CTR_V1 →
      cipher_len < 20 →
      p.CalculatePlainSize cipher_len is_metadata = cipher_len + 4294967296 - 20) := by
  constructor
  · intro hb hlt
    unfold EncryptionProperties.CalculatePlainSize
    rw [if_pos (by simpa using hb)]
    unfold u32sub
    omega
  · intro hm halg hlt
    unfold EncryptionProperties.CalculatePlainSize
    rw [if_neg (by simp [hm, halg]), if_pos halg]
    unfold u32sub
    omega

/-- Witness for C2 at `cipher_len = 0` with `AES_GCM_V1` metadata-less and
`AES_GCM_CTR_V1` metadata-less frames. -/
theorem calculatePlainSize_underflow_wraps_witness :
    EncryptionProperties.CalculatePlainSize ⟨Encryption.AES_GCM_V1, [], []⟩ 0 false
        = 4294967264 ∧
    EncryptionProperties.CalculatePlainSize ⟨Encryption.AES_GCM_CTR_V1, [], []⟩ 0 false
        = 4294967276 :=
  ⟨(calculatePlainSize_underflow_wraps ⟨Encryption.AES_GCM_V1, [], []⟩ 0 false).1
      (Or.inr rfl) (by decide),
   (calculatePlainSize_underflow_wraps ⟨Encryption.AES_GCM_CTR_V1, [], []⟩ 0 false).2
      rfl rfl (by decide)⟩

/-- Claim C3: for every uint32 `plain_len`, every algorithm and both values
of `is_metadata`, `CalculatePlainSize (CalculateCipherSize plain_len m) m
= plain_len` (uint32 arithmetic modulo `2^32`). -/
theorem cipher_plain_size_roundtrip (p : EncryptionProperties)
    (plain_len : Nat) (is_metadata : Bool) (h : plain_len < 4294967296) :
    p.CalculatePlainSize (p.CalculateCipherSize plain_len is_metadata) is_metadata
      = plain_len := by
  unfold EncryptionProperties.CalculatePlainSize EncryptionProperties.CalculateCipherSize
  rcases halg : p.algorithm_ <;> cases is_metadata <;>
    simp only [halg, Bool.false_eq_true, false_or, true_or, or_self, if_true, if_false,
      reduceCtorEq, if_pos, if_neg, not_false_eq_true] <;>
    unfold u32add u32sub <;>
    omega

/-- Witness for C3 at `plain_len = 1000` with `AES_GCM_CTR_V1`, no
metadata. -/
theorem cipher_plain_size_roundtrip_witness :
    EncryptionProperties.CalculatePlainSize ⟨Encryption.AES_GCM_CTR_V1, [], []⟩
      (EncryptionProperties.CalculateCipherSize ⟨Encryption.AES_GCM_CTR_V1, [], []⟩
        1000 false) false = 1000 :=
  cipher_plain_size_roundtrip ⟨Encryption.AES_GCM_CTR_V1, [], []⟩ 1000 false (by decide)

/-- Claim C4, as stated, is false at the upper end of the uint32 range: the
additions are performed in uint32 arithmetic, so for
`plain_len = 4294967295` and algorithm `AES_GCM_V1` the function returns
`31`, not `plain_len + 28 + 4`. -/
theorem calculateCipherSize_exact_cex :
    EncryptionProperties.CalculateCipherSize ⟨Encryption.AES_GCM_V1, [], []⟩
        4294967295 false ≠ 4294967295 + 28 + 4 := by
  decide

/-- Claim C4 (amended): for every uint32 `plain_len`, `CalculateCipherSize`
returns `(plain_len + 28 + 4) mod 2^32` when `is_metadata` or the algorithm
is `AES_GCM_V1`, and `(plain_len + 16 + 4) mod 2^32` when the algorithm is
`AES_GCM_CTR_V1` without metadata (the otherwise branch returning
`plain_len` unchanged is unreachable, the algorithm enum having exactly
these two values). -/
theorem calculateCipherSize_mod (p : EncryptionProperties)
    (plain_len : Nat) (is_metadata : Bool) (_h : plain_len < 4294967296) :
    ((is_metadata = true ∨ p.algorithm_ = Encryption.AES_GCM_V1) →
      p.CalculateCipherSize plain_len is_metadata
        = (plain_len + 28 + 4) % 4294967296) ∧
    (is_metadata = false → p.algorithm_ = Encryption.AES_GCM_CTR_V1 →
      p.CalculateCipherSize plain_len is_metadata
        = (plain_len + 16 + 4) % 4294967296) := by
  constructor
  · intro hb
    unfold EncryptionProperties.CalculateCipherSize
    rw [if_pos (by simpa using hb)]
    unfold u32add
    omega
  · intro hm halg
    unfold EncryptionProperties.CalculateCipherSize
    rw [if_neg (by simp [hm, halg]), if_pos halg]
    unfold u32add
    omega

/-- Witness for C4's amended theorem at `plain_len = 4294967295` (wraps) and
at `plain_len = 10` (no wrap). -/
theorem calculateCipherSize_mod_witness :
    EncryptionProperties.CalculateCipherSize ⟨Encryption.AES_GCM_V1, [], []⟩
        4294967295 false = 31 ∧
    EncryptionProperties.CalculateCipherSize ⟨Encryption.AES_GCM_CTR_V1, [], []⟩
        10 false = 30 :=
  ⟨by
    have := (calculateCipherSize_mod ⟨Encryption.AES_GCM_V1, [], []⟩ 4294967295 false
      (by decide)).1 (Or.inr rfl)
    rw [this]
   , by
    have := (calculateCipherSize_mod ⟨Encryption.AES_GCM_CTR_V1, [], []⟩ 10 false
      (by decide)).2 rfl rfl
    rw [this]⟩

/-- Claim C9: after the `EncryptionProperties` destructor body has run, the
owned key string is a string of the same length consisting entirely of zero
bytes (`key_.replace(0, key_.length(), key_.length(), '\0')`). -/
theorem encryptionProperties_destructor_wipes_key (p : EncryptionProperties) :
    p.destructor.key_ = List.replicate p.key_.length 0 := by
  unfold EncryptionProperties.destructor stringReplace
  simp

/- ------------------------------------------------------------------ -/
/- Part 8: invariants of the chunk-alignment loop                      -/
/- ------------------------------------------------------------------ -/

/-- Sum of the lengths of the first `n` chunks: the number of elements
consumed from a side once its cursor reaches chunk `n`, offset `0`. -/
def sumTake (L : List ArrayRef) (n : Nat) : Int :=
  chunkedLength (L.take n)

/-- A chunked array with elementwise non-negative chunk lengths has a
non-negative total length. -/
lemma chunkedLength_nonneg (L : List ArrayRef) (hpos : ∀ a ∈ L, 0 ≤ a.length) :
    0 ≤ chunkedLength L := by
  unfold chunkedLength
  apply List.sum_nonneg
  intro x hx
  obtain ⟨a, ha, rfl⟩ := List.mem_map.mp hx
  exact hpos a ha

/-- Consuming one more chunk adds that chunk's length to the prefix sum. -/
lemma sumTake_succ (L : List ArrayRef) (n : Nat) (a : ArrayRef)
    (h : L.get? n = some a) :
    sumTake L (n + 1) = sumTake L n + a.length := by
  induction L generalizing n with
  | nil => simp at h
  | cons x xs ih =>
    cases n with
    | zero =>
      simp at h
      subst h
      simp [sumTake, chunkedLength]
    | succ n =>
      simp only [List.get?_cons_succ] at h
      have hih := ih n h
      simp only [sumTake, chunkedLength, List.take_succ_cons, List.map_cons,
        List.sum_cons] at hih ⊢
      omega

/-- The whole-list prefix sum is the total length. -/
lemma sumTake_full (L : List ArrayRef) : sumTake L L.length = chunkedLength L := by
  simp [sumTake]

/-- Prefix sums never exceed the total length when all chunk lengths are
non-negative. -/
lemma sumTake_le_full (L : List ArrayRef) (n : Nat)
    (hpos : ∀ a ∈ L, 0 ≤ a.length) : sumTake L n ≤ chunkedLength L := by
  induction L generalizing n with
  | nil => simp [sumTake, chunkedLength]
  | cons x xs ih =>
    cases n with
    | zero =>
      simpa [sumTake, chunkedLength] using chunkedLength_nonneg (x :: xs) hpos
    | succ n =>
      have hx : 0 ≤ x.length := hpos x (by simp)
      have hxs : ∀ a ∈ xs, 0 ≤ a.length := fun a ha => hpos a (by simp [ha])
      have hih := ih n hxs
      simp only [sumTake, chunkedLength, List.take_succ_cons, List.map_cons,
        List.sum_cons] at hih ⊢
      omega

/-- While fewer elements than the total have been consumed, the chunk-index
cursor of each side is still inside its chunk list. -/
lemma cursor_in_bounds (L : List ArrayRef) (total : Int) (hT : chunkedLength L = total)
    (ci : Nat) (si ec : Int) (hci : ci ≤ L.length) (hsi : 0 ≤ si)
    (hsum : sumTake L ci + si = ec) (hlt : ec < total) : ci < L.length := by
  rcases Nat.lt_or_ge ci L.length with h | h
  · exact h
  · exfalso
    have hEq : ci = L.length := le_antisymm hci h
    rw [hEq, sumTake_full, hT] at hsum
    omega

/-- One advance step of a single side's cursor preserves the side's loop
invariants: the new chunk index stays within the list, the new offset is
non-negative and bounded by the new current chunk's length, the consumed
prefix grows by exactly `common`, and the chunk index moves by zero or one
steps forward. -/
lemma cursor_advance (M : List ArrayRef) (hpos : ∀ a ∈ M, 0 ≤ a.length)
    (ci : Nat) (si common ec : Int) (a : ArrayRef) (ha : M.get? ci = some a)
    (hsi : 0 ≤ si) (hcom : 0 ≤ common) (hle : common ≤ a.length - si)
    (hsum : sumTake M ci + si = ec) :
    (if si + common = a.length then ci + 1 else ci) ≤ M.length ∧
    (0 : Int) ≤ (if si + common = a.length then (0 : Int) else si + common) ∧
    (∀ b, M.get? (if si + common = a.length then ci + 1 else ci) = some b →
      (if si + common = a.length then (0 : Int) else si + common) ≤ b.length) ∧
    sumTake M (if si + common = a.length then ci + 1 else ci)
      + (if si + common = a.length then (0 : Int) else si + common) = ec + common ∧
    ci ≤ (if si + common = a.length then ci + 1 else ci) ∧
    (if si + common = a.length then ci + 1 else ci) ≤ ci + 1 := by
  have hci : ci < M.length := by
    rcases List.get?_eq_some.mp ha with ⟨h, _⟩
    exact h
  by_cases hadv : si + common = a.length
  · simp only [if_pos hadv]
    refine ⟨hci, le_refl 0, ?_, ?_, Nat.le_succ ci, le_refl _⟩
    · intro b hb
      exact hpos b (List.get?_mem hb)
    · rw [sumTake_succ M ci a ha]
      omega
  · simp only [if_neg hadv]
    refine ⟨le_of_lt hci, by omega, ?_, by omega, le_refl ci, Nat.le_succ ci⟩
    intro b hb
    rw [ha] at hb
    injection hb with hb
    subst hb
    omega

/-- Main invariant lemma for the alignment loop: started in any state
satisfying the cursor invariants, with fuel exceeding the number of chunks
not yet fully visited on either side, the loop completes (no fuel
exhaustion and no out-of-bounds chunk access — each iteration advances the
chunk cursor of at least one side, the side achieving the minimum).  If the
kernel never fails the final status is ok, and if the kernel is moreover
length-preserving the lengths of the datums appended to `outputs` sum to
`total - ec`. -/
lemma binaryLoop_spec (kernel : BinaryKernel) (L R : List ArrayRef) (total : Int)
    (hLpos : ∀ a ∈ L, 0 ≤ a.length) (hRpos : ∀ a ∈ R, 0 ≤ a.length)
    (hTL : chunkedLength L = total) (hTR : chunkedLength R = total) :
    ∀ (fuel lci : Nat) (lsi : Int) (rci : Nat) (rsi ec : Int) (outputs : List Datum),
      lci ≤ L.length → rci ≤ R.length → 0 ≤ lsi → 0 ≤ rsi →
      (∀ b, L.get? lci = some b → lsi ≤ b.length) →
      (∀ b, R.get? rci = some b → rsi ≤ b.length) →
      sumTake L lci + lsi = ec → sumTake R rci + rsi = ec → ec ≤ total →
      L.length - lci + (R.length - rci) < fuel →
      ∃ (st : Status) (news : List Datum),
        binaryLoop kernel L R total fuel lci lsi rci rsi ec outputs
          = some (st, outputs ++ news) ∧
        ((∀ d e, (kernel d e).1 = Status.ok) →
          st = Status.ok ∧
          ((∀ d e, datumLength (kernel d e).2 = datumLength d) →
            (news.map datumLength).sum = total - ec)) := by
  intro fuel
  induction fuel with
  | zero =>
    intro lci lsi rci rsi ec outputs _ _ _ _ _ _ _ _ _ hfuel
    omega
  | succ fuel ih =>
    intro lci lsi rci rsi ec outputs hlci hrci hlsi hrsi hlchunk hrchunk hsl hsr hec hfuel
    by_cases hlt : ec < total
    · -- the loop body runs
      have hlci' : lci < L.length := cursor_in_bounds L total hTL lci lsi ec hlci hlsi hsl hlt
      have hrci' : rci < R.length := cursor_in_bounds R total hTR rci rsi ec hrci hrsi hsr hlt
      obtain ⟨la, hla⟩ : ∃ la, L.get? lci = some la := ⟨_, List.get?_eq_get hlci'⟩
      obtain ⟨ra, hra⟩ : ∃ ra, R.get? rci = some ra := ⟨_, List.get?_eq_get hrci'⟩
      have hstep : binaryLoop kernel L R total (fuel + 1) lci lsi rci rsi ec outputs
          = binaryLoop kernel L R total (fuel + 1) lci lsi rci rsi ec outputs := rfl
      conv_rhs at hstep => rw [binaryLoop]
      rw [if_pos hlt, hla, hra] at hstep
      simp only [] at hstep
      generalize hcommon : min (la.length - lsi) (ra.length - rsi) = common at hstep
      have hlsile : lsi ≤ la.length := hlchunk la hla
      have hrsile : rsi ≤ ra.length := hrchunk ra hra
      have hcom0 : 0 ≤ common := by rw [← hcommon]; exact le_min (by omega) (by omega)
      have hcoml : common ≤ la.length - lsi := by rw [← hcommon]; exact min_le_left _ _
      have hcomr : common ≤ ra.length - rsi := by rw [← hcommon]; exact min_le_right _ _
      have hmc : common = la.length - lsi ∨ common = ra.length - rsi := by
        rw [← hcommon]; exact min_choice _ _
      rcases hk : kernel (Datum.array (la.slice lsi common)) (Datum.array (ra.slice rsi common))
        with ⟨st, out⟩
      rw [hk] at hstep
      cases st with
      | invalid msg =>
        simp only [] at hstep
        refine ⟨Status.invalid msg, [], ?_, ?_⟩
        · rw [List.append_nil]
          exact hstep
        · intro hko
          exfalso
          have hcontra := hko (Datum.array (la.slice lsi common))
            (Datum.array (ra.slice rsi common))
          rw [hk] at hcontra
          simp at hcontra
      | ok =>
        simp only [] at hstep
        obtain ⟨hL1, hL2, hL3, hL4, _hL5, _hL6⟩ :=
          cursor_advance L hLpos lci lsi common ec la hla hlsi hcom0 hcoml hsl
        obtain ⟨hR1, hR2, hR3, hR4, _hR5, _hR6⟩ :=
          cursor_advance R hRpos rci rsi common ec ra hra hrsi hcom0 hcomr hsr
        have hec' : ec + common ≤ total := by
          rcases hmc with h | h
          · have h1 := sumTake_succ L lci la hla
            have h2 := sumTake_le_full L (lci + 1) hLpos
            rw [hTL] at h2
            omega
          · have h1 := sumTake_succ R rci ra hra
            have h2 := sumTake_le_full R (rci + 1) hRpos
            rw [hTR] at h2
            omega
        have hmeasure : L.length - (if lsi + common = la.length then lci + 1 else lci)
            + (R.length - (if rsi + common = ra.length then rci + 1 else rci)) < fuel := by
          rcases hmc with h | h
          · rw [if_pos (show lsi + common = la.length by omega)]
            split <;> omega
          · rw [if_pos (show rsi + common = ra.length by omega)]
            split <;> omega
        obtain ⟨st', news, hloop, hprop⟩ := ih
          (if lsi + common = la.length then lci + 1 else lci)
          (if lsi + common = la.length then 0 else lsi + common)
          (if rsi + common = ra.length then rci + 1 else rci)
          (if rsi + common = ra.length then 0 else rsi + common)
          (ec + common) (outputs ++ [out])
          hL1 hR1 hL2 hR2 hL3 hR3 hL4 hR4 hec' hmeasure
        refine ⟨st', out :: news, ?_, ?_⟩
        · rw [hstep, hloop]
          simp
        · intro hko
          obtain ⟨hst, hsum'⟩ := hprop hko
          refine ⟨hst, ?_⟩
          intro hkp
          have hout : datumLength out = common := by
            have hlen := hkp (Datum.array (la.slice lsi common))
              (Datum.array (ra.slice rsi common))
            rw [hk] at hlen
            simpa [datumLength, ArrayRef.slice] using hlen
          have hrest := hsum' hkp
          simp only [List.map_cons, List.sum_cons, hout, hrest]
          omega
    · -- the loop guard fails: all elements have been consumed
      have hecEq : ec = total := le_antisymm hec (not_lt.mp hlt)
      have hstep : binaryLoop kernel L R total (fuel + 1) lci lsi rci rsi ec outputs
          = some (Status.ok, outputs) := by
        conv_lhs => rw [binaryLoop]
        rw [if_neg hlt]
      refine ⟨Status.ok, [], ?_, ?_⟩
      · rw [List.append_nil]
        exact hstep
      · intro _
        exact ⟨rfl, fun _ => by simp [hecEq]⟩

/- ------------------------------------------------------------------ -/
/- Part 9: resolution helpers and the loop started from the top        -/
/- ------------------------------------------------------------------ -/

/-- Resolving an array-like datum yields its total logical length and its
chunk list. -/
lemma resolveDatum_eq (d : Datum) (h : d.arrayLike = true) :
    resolveDatum d = some (datumLength d, d.chunksOf) := by
  cases d <;>
    simp [resolveDatum, datumLength, Datum.chunksOf, Datum.arrayLike] at h ⊢

/-- The chunk list of an array-like datum sums to the datum's total logical
length. -/
lemma chunksOf_total (d : Datum) (h : d.arrayLike = true) :
    chunkedLength d.chunksOf = datumLength d := by
  cases d <;> simp [datumLength, Datum.chunksOf, Datum.arrayLike, chunkedLength] at h ⊢

/-- With both operands array-like and of equal total length, the validation
prologue of `InvokeBinaryArrayKernel` passes and the function reduces to
the alignment loop over the two chunk lists. -/
lemma invokeBinary_eq_loop (kernel : BinaryKernel) (left right : Datum)
    (outputs : List Datum) (hL : left.arrayLike = true) (hR : right.arrayLike = true)
    (hlen : datumLength left = datumLength right) :
    InvokeBinaryArrayKernel kernel left right outputs
      = binaryLoop kernel left.chunksOf right.chunksOf (datumLength left)
          (left.chunksOf.length + right.chunksOf.length + 1) 0 0 0 0 0 outputs := by
  unfold InvokeBinaryArrayKernel
  rw [resolveDatum_eq left hL, resolveDatum_eq right hR]
  simp only []
  rw [if_neg (by rw [hlen]; simp)]

/-- `binaryLoop_spec` at the loop's actual entry state (both cursors at the
start, nothing consumed) with the fuel `InvokeBinaryArrayKernel` passes. -/
lemma binaryLoop_from_start (kernel : BinaryKernel) (L R : List ArrayRef) (total : Int)
    (hLpos : ∀ a ∈ L, 0 ≤ a.length) (hRpos : ∀ a ∈ R, 0 ≤ a.length)
    (hTL : chunkedLength L = total) (hTR : chunkedLength R = total)
    (outputs : List Datum) :
    ∃ (st : Status) (news : List Datum),
      binaryLoop kernel L R total (L.length + R.length + 1) 0 0 0 0 0 outputs
        = some (st, outputs ++ news) ∧
      ((∀ d e, (kernel d e).1 = Status.ok) →
        st = Status.ok ∧
        ((∀ d e, datumLength (kernel d e).2 = datumLength d) →
          (news.map datumLength).sum = total)) := by
  have h0 : (0 : Int) ≤ total := by
    rw [← hTL]
    exact chunkedLength_nonneg L hLpos
  obtain ⟨st, news, hloop, hprop⟩ := binaryLoop_spec kernel L R total hLpos hRpos hTL hTR
    (L.length + R.length + 1) 0 0 0 0 0 outputs
    (Nat.zero_le _) (Nat.zero_le _) le_rfl le_rfl
    (fun b hb => hLpos b (List.get?_mem hb))
    (fun b hb => hRpos b (List.get?_mem hb))
    (by simp [sumTake, chunkedLength])
    (by simp [sumTake, chunkedLength])
    h0 (by omega)
  refine ⟨st, news, hloop, ?_⟩
  intro hko
  obtain ⟨hst, hsum⟩ := hprop hko
  refine ⟨hst, ?_⟩
  intro hkp
  have := hsum hkp
  simpa using this

/-- A concrete binary kernel used by the witnesses: always succeeds and
returns its left operand, hence length-preserving. -/
def leftIdKernel : BinaryKernel := fun d _e => (Status.ok, d)

/- ------------------------------------------------------------------ -/
/- Part 10: claims C5, C6, C7, C8, C10                                 -/
/- ------------------------------------------------------------------ -/

/-- Claim C5: for equal-length array-like operands with non-negative chunk
lengths, `InvokeBinaryArrayKernel` invokes the kernel on a sequence of
equal-length slice pairs (each of the `common_length` computed as the
minimum of the remaining lengths of the two current chunks), so a
never-failing, length-preserving kernel yields status ok and appended
output segments whose lengths sum to exactly the common total length. -/
theorem invokeBinary_length_invariant (kernel : BinaryKernel) (left right : Datum)
    (outputs : List Datum)
    (hL : left.arrayLike = true) (hR : right.arrayLike = true)
    (hLpos : ∀ a ∈ left.chunksOf, 0 ≤ a.length)
    (hRpos : ∀ a ∈ right.chunksOf, 0 ≤ a.length)
    (hlen : datumLength left = datumLength right)
    (hko : ∀ d e, (kernel d e).1 = Status.ok)
    (hkp : ∀ d e, datumLength (kernel d e).2 = datumLength d) :
    ∃ news, InvokeBinaryArrayKernel kernel left right outputs
        = some (Status.ok, outputs ++ news) ∧
      (news.map datumLength).sum = datumLength left := by
  obtain ⟨st, news, hloop, hprop⟩ := binaryLoop_from_start kernel
    left.chunksOf right.chunksOf (datumLength left) hLpos hRpos
    (chunksOf_total left hL) (by rw [chunksOf_total right hR, hlen]) outputs
  obtain ⟨hst, hsum⟩ := hprop hko
  subst hst
  exact ⟨news, by rw [invokeBinary_eq_loop kernel left right outputs hL hR hlen]; exact hloop,
    hsum hkp⟩

/-- Witness for C5: left chunked with chunk lengths `[2, 3]`, right a single
array of length `5`, with the left-identity kernel. -/
theorem invokeBinary_length_invariant_witness :
    ∃ news, InvokeBinaryArrayKernel leftIdKernel (Datum.chunked [⟨2⟩, ⟨3⟩])
        (Datum.array ⟨5⟩) [] = some (Status.ok, [] ++ news) ∧
      (news.map datumLength).sum = datumLength (Datum.chunked [⟨2⟩, ⟨3⟩]) :=
  invokeBinary_length_invariant leftIdKernel (Datum.chunked [⟨2⟩, ⟨3⟩]) (Datum.array ⟨5⟩)
    [] (by decide) (by decide) (by decide) (by decide) (by decide)
    (fun _ _ => rfl) (fun _ _ => rfl)

/-- Claim C7: `InvokeBinaryArrayKernel` returns an InvalidInput error
exactly when the left datum is not array-like, the right datum is not
array-like, or the total lengths differ; in each error case the result is
the same for every kernel (the kernel is never consulted) and the outputs
vector is returned unchanged, while for valid inputs and a never-failing
kernel the status is ok.  Likewise `InvokeUnaryArrayKernel` rejects a
non-array-like input with InvalidInput, leaving the outputs unchanged. -/
theorem invoke_invalid_input_iff (kernel : BinaryKernel) (ukernel : UnaryKernel)
    (left right value : Datum) (outputs : List Datum) :
    (left.arrayLike = false →
      InvokeBinaryArrayKernel kernel left right outputs
        = some (Status.invalid msgLeftNotArrayLike, outputs)) ∧
    (left.arrayLike = true → right.arrayLike = false →
      InvokeBinaryArrayKernel kernel left right outputs
        = some (Status.invalid msgRightNotArrayLike, outputs)) ∧
    (left.arrayLike = true → right.arrayLike = true →
      datumLength right ≠ datumLength left →
      InvokeBinaryArrayKernel kernel left right outputs
        = some (Status.invalid msgDifferentLengths, outputs)) ∧
    (left.arrayLike = true → right.arrayLike = true →
      datumLength right = datumLength left →
      (∀ a ∈ left.chunksOf, 0 ≤ a.length) → (∀ a ∈ right.chunksOf, 0 ≤ a.length) →
      (∀ d e, (kernel d e).1 = Status.ok) →
      ∃ news, InvokeBinaryArrayKernel kernel left right outputs
          = some (Status.ok, outputs ++ news)) ∧
    (value.arrayLike = false →
      InvokeUnaryArrayKernel ukernel value outputs
        = (Status.invalid msgInputNotArrayLike, outputs)) := by
  refine ⟨?_, ?_, ?_, ?_, ?_⟩
  · intro h
    cases left <;> simp [Datum.arrayLike] at h <;>
      simp [InvokeBinaryArrayKernel, resolveDatum]
  · intro hL hR
    unfold InvokeBinaryArrayKernel
    rw [resolveDatum_eq left hL]
    cases right <;> simp [Datum.arrayLike] at hR <;> simp [resolveDatum]
  · intro hL hR hne
    unfold InvokeBinaryArrayKernel
    rw [resolveDatum_eq left hL, resolveDatum_eq right hR]
    simp only []
    rw [if_pos hne]
  · intro hL hR hlen hLpos hRpos hko
    obtain ⟨st, news, hloop, hprop⟩ := binaryLoop_from_start kernel
      left.chunksOf right.chunksOf (datumLength left) hLpos hRpos
      (chunksOf_total left hL) (by rw [chunksOf_total right hR, hlen]) outputs
    obtain ⟨hst, _⟩ := hprop hko
    subst hst
    exact ⟨news,
      by rw [invokeBinary_eq_loop kernel left right outputs hL hR hlen.symm]; exact hloop⟩
  · intro h
    cases value <;> simp [Datum.arrayLike] at h <;>
      simp [InvokeUnaryArrayKernel]

/-- Witness for C7: a non-array-like left operand is rejected with the
left-operand message, and a length-5 versus length-6 pair is rejected with
the length-mismatch message, both leaving the outputs vector unchanged. -/
theorem invoke_invalid_input_iff_witness :
    InvokeBinaryArrayKernel leftIdKernel Datum.other (Datum.array ⟨3⟩) []
        = some (Status.invalid msgLeftNotArrayLike, []) ∧
    InvokeBinaryArrayKernel leftIdKernel (Datum.array ⟨5⟩) (Datum.array ⟨6⟩) []
        = some (Status.invalid msgDifferentLengths, []) :=
  ⟨(invoke_invalid_input_iff leftIdKernel (fun d => (Status.ok, d)) Datum.other
      (Datum.array ⟨3⟩) Datum.other []).1 rfl,
   (invoke_invalid_input_iff leftIdKernel (fun d => (Status.ok, d)) (Datum.array ⟨5⟩)
      (Datum.array ⟨6⟩) Datum.other []).2.2.1 rfl rfl (by decide)⟩

/-- Claim C10: for array-like operands with non-negative chunk lengths and
equal totals, the alignment loop terminates for every kernel — an
iteration with `common_length = 0` still advances the cursor of the
exhausted side — and no chunk index runs past its list (`none` in the
model marks fuel exhaustion or an out-of-bounds chunk access, and is never
returned). -/
theorem invokeBinary_alignment_terminates (kernel : BinaryKernel) (left right : Datum)
    (outputs : List Datum)
    (hL : left.arrayLike = true) (hR : right.arrayLike = true)
    (hLpos : ∀ a ∈ left.chunksOf, 0 ≤ a.length)
    (hRpos : ∀ a ∈ right.chunksOf, 0 ≤ a.length)
    (hlen : datumLength left = datumLength right) :
    InvokeBinaryArrayKernel kernel left right outputs ≠ none := by
  obtain ⟨st, news, hloop, _⟩ := binaryLoop_from_start kernel
    left.chunksOf right.chunksOf (datumLength left) hLpos hRpos
    (chunksOf_total left hL) (by rw [chunksOf_total right hR, hlen]) outputs
  rw [invokeBinary_eq_loop kernel left right outputs hL hR hlen, hloop]
  simp

/-- Witness for C10 with zero-length chunks on the right side: the loop
still terminates. -/
theorem invokeBinary_alignment_terminates_witness :
    InvokeBinaryArrayKernel leftIdKernel (Datum.array ⟨2⟩)
      (Datum.chunked [⟨0⟩, ⟨2⟩, ⟨0⟩]) [] ≠ none :=
  invokeBinary_alignment_terminates leftIdKernel (Datum.array ⟨2⟩)
    (Datum.chunked [⟨0⟩, ⟨2⟩, ⟨0⟩]) [] (by decide) (by decide) (by decide) (by decide)
    (by decide)

/-- Claim C8: when the reference datum is a single array, `WrapDatumsLike`
fails its internal consistency check (`DCHECK_EQ(1, datums.size())`) for
every list whose size is not one, and under the precondition that the list
is exactly one (array-kind) element it unwraps and returns that element —
the `datums[0]` access is in bounds and the failure branch is not taken. -/
theorem wrapDatumsLike_single_contract (a b : ArrayRef) (datums : List Datum) :
    (datums.length ≠ 1 → WrapDatumsLike (Datum.array a) datums = none) ∧
    WrapDatumsLike (Datum.array a) [Datum.array b] = some (Datum.array b) := by
  constructor
  · intro h
    unfold WrapDatumsLike
    rw [dif_neg h]
  · rfl

/-- Witness for C8 at an empty list (consistency check fails) and at a
singleton list (the element is returned unwrapped). -/
theorem wrapDatumsLike_single_contract_witness :
    WrapDatumsLike (Datum.array ⟨3⟩) [] = none ∧
    WrapDatumsLike (Datum.array ⟨3⟩) [Datum.array ⟨5⟩] = some (Datum.array ⟨5⟩) :=
  ⟨(wrapDatumsLike_single_contract ⟨3⟩ ⟨5⟩ []).1 (by decide),
   (wrapDatumsLike_single_contract ⟨3⟩ ⟨5⟩ []).2⟩

/-- Claim C6 names a shape-mirroring property the code does not deliver:
with `left` a single array of length 4 and `right` chunked as `[1, 3]`,
the loop produces two output segments, and the Datum-returning overload
then fails `WrapDatumsLike`'s own `DCHECK_EQ(1, datums.size())` assertion
(`none` in the model) instead of producing a single-array datum — even
though the kernel (left-identity) never fails and preserves lengths. -/
theorem invokeBinaryDatum_shape_failing_input :
    InvokeBinaryArrayKernelDatum leftIdKernel (Datum.array ⟨4⟩)
      (Datum.chunked [⟨1⟩, ⟨3⟩]) = some (Status.ok, none) := by
  decide
